import Mathlib

set_option maxHeartbeats 1000000

/-!
# Shallow embedding of commitizen's tag rules

This file embeds `src/commitizen/tags.py` (the `TagRules` rule set) and
`src/commitizen/changelog_formats/markdown.py` (the markdown changelog
heading helpers) and proves the stated properties about them.

Modelling conventions:

* Python strings are Lean `String`s (whose logical model is a list of
  characters); `GitTag` is its `name` field, the only part the code uses.
* A Python `re.Match` is modelled by `PyMatch`: the matched text
  (`match.group(0)`) together with the `groupdict()` — an association list
  from group names to `Option String` (`none` models a named group that did
  not participate in the match; a name missing from the list models a group
  that does not exist in the pattern, whose lookup raises `KeyError`).
* A compiled `re.Pattern` is modelled by `PyRegex`: the three operations the
  source calls (`match`, `fullmatch`, `finditer`) as functions, together
  with the regex-library fact that a full match is in particular a
  start-anchored match.  Concrete patterns used by the theorems are built by
  `regexOfParse` from executable prefix parsers.
* The active version scheme lives in `commitizen/version_schemes.py`, which
  is not among the sources of this development; it is modelled from the
  spec (an abstract `Scheme` record, instantiated by a canonical
  three-component scheme `semverScheme`).
* `str.replace`, `string.Template.safe_substitute` and the scanning of
  `re.finditer` are Python library routines; they are given executable
  models (`pyReplace`, `safeSubstitute`, `scanCore`) following their
  documented semantics.  All recursions use explicit fuel so that every
  definition evaluates by kernel reduction.
-/

/-- Python `str(x)` applied to an optional string: `None` renders as `"None"`
(this is what an f-string does with a non-participating group value). -/
def pyStr : Option String → String
  | some s => s
  | none => "None"

/-- Model of a Python `re.Match`: the full matched text and the `groupdict()`. -/
structure PyMatch where
  group0 : String
  groups : List (String × Option String)
deriving DecidableEq

/-- `parts.get(k)` followed by Python truthiness: the captured value of group
`k` when the group exists, participated and captured a non-empty string. -/
def PyMatch.groupTruthy (m : PyMatch) (k : String) : Option String :=
  match List.lookup k m.groups with
  | some (some s) => if s = "" then none else some s
  | _ => none

/-- Model of a compiled Python `re.Pattern`: the three operations
`src/commitizen/tags.py` uses.  `reMatch` is `pattern.match` (anchored at the
start, trailing text tolerated), `reFullmatch` is `pattern.fullmatch` (the
whole string must be consumed), `reFinditer` is `list(pattern.finditer(txt))`.
`full_to_match` records the regex-library fact that whenever the whole string
matches, the pattern in particular matches at the start. -/
structure PyRegex where
  reMatch : String → Option PyMatch
  reFullmatch : String → Option PyMatch
  reFinditer : String → List PyMatch
  full_to_match : ∀ s, (reFullmatch s).isSome → (reMatch s).isSome

/-- Modelled from the spec: the `Version` value of the version-scheme
interface (`commitizen/version_schemes.py` is not among the sources here).
Per the spec's data model it carries the `release` triple and an optional
`prerelease` suffix. -/
structure Version where
  major : Nat
  minor : Nat
  patch : Nat
  prerelease : Option String
deriving DecidableEq

/-- `version.is_prerelease` of the scheme interface. -/
def Version.is_prerelease (v : Version) : Bool := v.prerelease.isSome

/-- `version.release`, the ordered triple. -/
def Version.release (v : Version) : Nat × Nat × Nat := (v.major, v.minor, v.patch)

/-- Modelled from the spec: the version-scheme capability set consumed by
`TagRules` — construction from a string (`none` models raising
`InvalidVersion`) and the canonical string form `str(version)`. -/
structure Scheme where
  parse : String → Option Version
  render : Version → String

/-- A git tag; the code under study only ever reads its `name`. -/
structure GitTag where
  name : String
deriving DecidableEq

/-- The `TagRules` dataclass of `src/commitizen/tags.py`.  The regex lists
stand for the cached properties `version_regexes` (compiled from
`[tag_format, *legacy_tag_formats]`, in that order) and `ignored_regexes`
(compiled from `ignored_tag_formats` with `star=True`); compilation itself
(`re.compile`) happens outside the embedded functions. -/
structure TagRules where
  scheme : Scheme
  tag_format : String
  version_regexes : List PyRegex
  ignored_regexes : List PyRegex
  merge_prereleases : Bool

/-- `TagRules.is_version_tag`: true iff some version regex matches at the
start of the tag name (`regex.match`). -/
def TagRules.is_version_tag (rules : TagRules) (tag : String) : Bool :=
  rules.version_regexes.any (fun r => (r.reMatch tag).isSome)

/-- `TagRules.is_ignored_tag`: true iff some ignored regex matches at the
start of the tag name. -/
def TagRules.is_ignored_tag (rules : TagRules) (tag : String) : Bool :=
  rules.ignored_regexes.any (fun r => (r.reMatch tag).isSome)

/-- `TagRules._select_tag`: the selection decision for one tag, together with
the warnings emitted (modelled as the list of tag names passed to
`out.warn`; the real call never raises, it only prints). -/
def TagRules.select_tag (rules : TagRules) (tag : GitTag) (warn : Bool) :
    Bool × List String :=
  if rules.is_version_tag tag.name then (true, [])
  else if warn && !(rules.is_ignored_tag tag.name) then (false, [tag.name])
  else (false, [])

/-- `TagRules.get_version_tags`: the filtered tag list (first component)
together with all warnings emitted along the way (second component). -/
def TagRules.get_version_tags (rules : TagRules) :
    List GitTag → Bool → List GitTag × List String
  | [], _ => ([], [])
  | t :: ts, warn =>
    let s := rules.select_tag t warn
    let rest := rules.get_version_tags ts warn
    (if s.1 then t :: rest.1 else rest.1, s.2 ++ rest.2)

/-- `TagRules._version_string`: assemble the version string from a match.
`none` models an exception escaping the function (a `KeyError` when neither
a `version` nor a `major` group exists in the pattern; the pathological
`version`-group-participated-as-`None` case, where the Python code would
hand `None` to the scheme, is conflated into `none` as well). -/
def version_string (m : PyMatch) : Option String :=
  match List.lookup "version" m.groups with
  | some v => v
  | none =>
    match List.lookup "major" m.groups with
    | none => none
    | some majv =>
      let v1 : Option String :=
        match m.groupTruthy "minor" with
        | some mi => some (pyStr majv ++ "." ++ mi)
        | none => majv
      let v2 : Option String :=
        match m.groupTruthy "patch" with
        | some pa => some (pyStr v1 ++ "." ++ pa)
        | none => v1
      let v3 : Option String :=
        match m.groupTruthy "prerelease" with
        | some pr => some (pyStr v2 ++ "-" ++ pr)
        | none => v2
      match m.groupTruthy "devrelease" with
      | some d => some (pyStr v3 ++ d)
      | none => v3

/-- The first regex in the list that fully matches the tag, and its match —
the `candidates` generator of `TagRules.extract_version`. -/
def firstFull : List PyRegex → String → Option PyMatch
  | [], _ => none
  | r :: rs, tag =>
    match r.reFullmatch tag with
    | some m => some m
    | none => firstFull rs tag

/-- Outcome of `TagRules.extract_version`: a version, a raised
`InvalidVersion`, or a raised `KeyError` (the uncaught exception from
`_version_string` when the pattern has neither `version` nor `major`). -/
inductive ExtractResult where
  | ok (v : Version)
  | invalidVersion
  | keyError
deriving DecidableEq

/-- `TagRules.extract_version`: first fully-matching regex (primary format
first, then legacy formats in order), assemble the version string, parse it
with the active scheme. -/
def TagRules.extract_version (rules : TagRules) (tag : GitTag) : ExtractResult :=
  match firstFull rules.version_regexes tag.name with
  | none => .invalidVersion
  | some m =>
    match version_string m with
    | none => .keyError
    | some s =>
      match rules.scheme.parse s with
      | none => .invalidVersion
      | some v => .ok v

/-- `TagRules.include_in_changelog`.  `some b` is a returned boolean; `none`
models the one exception the `try` block does not catch (`KeyError`). -/
def TagRules.include_in_changelog (rules : TagRules) (tag : GitTag) : Option Bool :=
  match rules.extract_version tag with
  | .invalidVersion => some false
  | .keyError => none
  | .ok v => if rules.merge_prereleases && v.is_prerelease then some false else some true

/-- The first regex in the list whose `finditer` yields at least one match,
with its (non-empty) match list — the `candidates` generator of
`TagRules.search_version`. -/
def firstMatches : List PyRegex → String → Option (List PyMatch)
  | [], _ => none
  | r :: rs, txt =>
    match r.reFinditer txt with
    | [] => firstMatches rs txt
    | m :: ms => some (m :: ms)

/-- `matches[-1 if last else 0]`. -/
def pickMatch (last : Bool) (ms : List PyMatch) : Option PyMatch :=
  if last then ms.getLast? else ms.head?

/-- The group-assembly tail of `TagRules.search_version` (lines 138–151):
use the `version` group if the pattern has one, otherwise require the
`major`, `minor` and `patch` groups to exist (`KeyError` → `None`) and
assemble `major.minor.patch` with optional prerelease / devrelease. -/
def searchAssemble (m : PyMatch) : Option (String × String) :=
  match List.lookup "version" m.groups with
  | some v => some (pyStr v, m.group0)
  | none =>
    match List.lookup "major" m.groups, List.lookup "minor" m.groups,
        List.lookup "patch" m.groups with
    | some ma, some mi, some pa =>
      let base := pyStr ma ++ "." ++ pyStr mi ++ "." ++ pyStr pa
      let b2 :=
        match m.groupTruthy "prerelease" with
        | some pr => base ++ "-" ++ pr
        | none => base
      let b3 :=
        match m.groupTruthy "devrelease" with
        | some d => b2 ++ d
        | none => b2
      some (b3, m.group0)
    | _, _, _ => none

/-- `TagRules.search_version`: first regex with any match wins, pick the
first or last of its matches, assemble. -/
def TagRules.search_version (rules : TagRules) (txt : String) (last : Bool) :
    Option (String × String) :=
  match firstMatches rules.version_regexes txt with
  | none => none
  | some ms => (pickMatch last ms).bind searchAssemble

/-- Fuel-driven model of Python `str.replace` on character lists: replace
every non-overlapping occurrence of `pat` left to right.  Out of fuel, the
rest is returned unchanged (with fuel above the input length this never
happens for a non-empty `pat`). -/
def replaceCore (pat rep : List Char) : Nat → List Char → List Char
  | 0, cs => cs
  | _ + 1, [] => []
  | fuel + 1, c :: cs =>
    if pat.isPrefixOf (c :: cs) then rep ++ replaceCore pat rep fuel ((c :: cs).drop pat.length)
    else c :: replaceCore pat rep fuel cs

/-- Python `s.replace(pat, rep)` (for the non-empty patterns the code uses;
an empty pattern is returned unchanged here). -/
def pyReplace (s pat rep : String) : String :=
  if pat.data.isEmpty then s
  else ⟨replaceCore pat.data rep.data (s.data.length + 1) s.data⟩

/-- Does `pat` occur as a contiguous sublist? -/
def hasSub (pat : List Char) : List Char → Bool
  | [] => pat.isPrefixOf []
  | c :: cs => pat.isPrefixOf (c :: cs) || hasSub pat cs

/-- First character of a `string.Template` identifier. -/
def idStart (c : Char) : Bool := c.isAlpha || c = '_'

/-- Later characters of a `string.Template` identifier. -/
def idCont (c : Char) : Bool := c.isAlphanum || c = '_'

/-- Fuel-driven model of Python `string.Template(...).safe_substitute` over
the mapping `mp`: `$$` renders a dollar, `$name` and `${name}` substitute
known names and are left verbatim when unknown, and a `$` that introduces
neither form is left in place.  One unit of fuel is spent per `$`-escape or
ordinary character, each of which consumes at least one input character, so
fuel above the input length never runs out. -/
def safeSubstCore (mp : List (String × String)) : Nat → List Char → List Char
  | 0, cs => cs
  | _ + 1, [] => []
  | fuel + 1, c0 :: rest =>
    if c0 = '$' then
      match rest with
      | '$' :: r => '$' :: safeSubstCore mp fuel r
      | '{' :: r =>
        match r with
        | c :: r' =>
          if idStart c then
            let nm : List Char := c :: r'.takeWhile idCont
            match r'.dropWhile idCont with
            | '}' :: r2 =>
              match List.lookup (⟨nm⟩ : String) mp with
              | some val => val.data ++ safeSubstCore mp fuel r2
              | none => '$' :: '{' :: (nm ++ '}' :: safeSubstCore mp fuel r2)
            | _ => '$' :: safeSubstCore mp fuel ('{' :: r)
          else '$' :: safeSubstCore mp fuel ('{' :: r)
        | [] => '$' :: safeSubstCore mp fuel ['{']
      | c :: r =>
        if idStart c then
          let nm : List Char := c :: r.takeWhile idCont
          match List.lookup (⟨nm⟩ : String) mp with
          | some val => val.data ++ safeSubstCore mp fuel (r.dropWhile idCont)
          | none => '$' :: (nm ++ safeSubstCore mp fuel (r.dropWhile idCont))
        else '$' :: safeSubstCore mp fuel (c :: r)
      | [] => ['$']
    else c0 :: safeSubstCore mp fuel rest

/-- `Template(s).safe_substitute(**mp)`. -/
def safeSubstitute (mp : List (String × String)) (s : String) : String :=
  ⟨safeSubstCore mp (s.data.length + 1) s.data⟩

/-- The character standing for a decimal digit `d < 10` (Python rendering of
one digit of an `int`). -/
def decChar (d : Nat) : Char := Nat.digitChar d

/-- Fuel-driven decimal rendering of a natural number, most significant
digit first (Python `str(n)` for a non-negative `int`). -/
def natToDecCore : Nat → Nat → List Char → List Char
  | 0, _, acc => acc
  | fuel + 1, n, acc =>
    let d := decChar (n % 10)
    if n / 10 = 0 then d :: acc
    else natToDecCore fuel (n / 10) (d :: acc)

/-- Python `str(n)` for `n : Nat`. -/
def natToDec (n : Nat) : List Char := natToDecCore (n + 1) n []

/-- Is this an ASCII decimal digit? (`\d` of the generated patterns.) -/
def isDigitChar (c : Char) : Bool := '0' ≤ c && c ≤ '9'

/-- Is this an ASCII letter or digit? (the prerelease alphabet of the
modelled scheme pattern.) -/
def isAlnumChar (c : Char) : Bool :=
  ('0' ≤ c && c ≤ '9') || ('a' ≤ c && c ≤ 'z') || ('A' ≤ c && c ≤ 'Z')

/-- The numeric value of a big-endian digit run. -/
def decValue (ds : List Char) : Nat :=
  ds.foldl (fun a c => 10 * a + (c.toNat - 48)) 0

/-- Parse a canonical decimal number at the head of the input: a non-empty
digit run that is exactly the decimal rendering of its value (no leading
zeros — the `0|[1-9]\d*` component language of the modelled scheme pattern).
Returns the value, the consumed characters and the rest. -/
def parseNatC (cs : List Char) : Option (Nat × List Char × List Char) :=
  let ds := cs.takeWhile isDigitChar
  let rest := cs.dropWhile isDigitChar
  if ds.isEmpty then none
  else
    let n := decValue ds
    if natToDec n = ds then some (n, ds, rest) else none

/-- Modelled from the spec: render a `Version` canonically,
`major.minor.patch` with an optional `-prerelease` suffix — the
`str(version)` of the modelled scheme. -/
def renderChars (v : Version) : List Char :=
  natToDec v.major ++ '.' :: natToDec v.minor ++ '.' :: natToDec v.patch ++
    (match v.prerelease with
     | some p => '-' :: p.data
     | none => [])

/-- Consume one expected literal character. -/
def expectChar (c : Char) : List Char → Option (List Char)
  | x :: xs => if x = c then some xs else none
  | [] => none

/-- Greedy prefix parse of a canonical version
(`major.minor.patch[-prerelease]`): the language of the modelled scheme
pattern.  Returns the parsed version, the consumed characters and the rest.
For this grammar the greedy parse agrees with regex matching: every token is
a maximal run over an alphabet disjoint from what may follow it. -/
def vparse (cs : List Char) : Option (Version × List Char × List Char) :=
  match parseNatC cs with
  | none => none
  | some (ma, d1, r1) =>
    match expectChar '.' r1 with
    | none => none
    | some r2 =>
      match parseNatC r2 with
      | none => none
      | some (mi, d2, r3) =>
        match expectChar '.' r3 with
        | none => none
        | some r4 =>
          match parseNatC r4 with
          | none => none
          | some (pa, d3, r5) =>
            match expectChar '-' r5 with
            | some r6 =>
              if (r6.takeWhile isAlnumChar).isEmpty then
                some (⟨ma, mi, pa, none⟩, d1 ++ '.' :: d2 ++ '.' :: d3, r5)
              else
                some (⟨ma, mi, pa, some ⟨r6.takeWhile isAlnumChar⟩⟩,
                  d1 ++ '.' :: d2 ++ '.' :: d3 ++ '-' :: r6.takeWhile isAlnumChar,
                  r6.dropWhile isAlnumChar)
            | none => some (⟨ma, mi, pa, none⟩, d1 ++ '.' :: d2 ++ '.' :: d3, r5)

/-- Modelled from the spec: the active version scheme, with a canonical
parse (`InvalidVersion` on anything but a full canonical version string) and
canonical rendering. -/
def semverScheme : Scheme where
  parse s :=
    match vparse s.data with
    | some (v, _, []) => some v
    | _ => none
  render v := ⟨renderChars v⟩

/-- Fuel-driven model of `re.finditer` scanning, given a prefix parser `pp`
(parse a match at the current position or fail): try each position left to
right, and continue after the end of each match (advancing one character on
a hypothetical empty match, as the `re` scanner does).  One unit of fuel per
position suffices. -/
def scanCore (pp : List Char → Option (PyMatch × List Char)) :
    Nat → List Char → List PyMatch
  | 0, _ => []
  | _ + 1, [] =>
    match pp [] with
    | some (m, _) => [m]
    | none => []
  | fuel + 1, c :: cs =>
    match pp (c :: cs) with
    | none => scanCore pp fuel cs
    | some (m, rest) =>
      m :: scanCore pp fuel (if rest.length < cs.length + 1 then rest else cs)

/-- Build a `PyRegex` from a deterministic greedy prefix parser.  This is
faithful for the generated patterns in this development: each of their
tokens is a maximal run over an alphabet disjoint from what can follow it,
so the greedy parse is the regex prefix match and it consumes the whole
input exactly when `fullmatch` succeeds. -/
def regexOfParse (pp : List Char → Option (PyMatch × List Char)) : PyRegex where
  reMatch s := (pp s.data).map (fun x => x.1)
  reFullmatch s :=
    match pp s.data with
    | some (m, []) => some m
    | _ => none
  reFinditer s := scanCore pp (s.data.length + 1) s.data
  full_to_match := by
    intro s h
    match hp : pp s.data with
    | none => simp [hp] at h
    | some (m, rest) => simp [hp]

/-- Strip a literal character-list from the head of the input, returning the
rest. -/
def stripL : List Char → List Char → Option (List Char)
  | [], cs => some cs
  | _ :: _, [] => none
  | p :: ps, c :: cs => if p = c then stripL ps cs else none

/-- Prefix parser for the regex compiled from the format `p ++ "$version"`
(a placeholder-free, regex-literal prefix `p` followed by the scheme
pattern): the matched text is `p` plus a version, and the `groupdict` has
the single group `version` of the scheme pattern. -/
def litVParse (p : String) (cs : List Char) : Option (PyMatch × List Char) :=
  match stripL p.data cs with
  | none => none
  | some cs' =>
    match vparse cs' with
    | none => none
    | some (_, d, r) => some (⟨⟨p.data ++ d⟩, [("version", some ⟨d⟩)]⟩, r)

/-- The compiled regex of the format `p ++ "$version"`. -/
def litVRegex (p : String) : PyRegex := regexOfParse (litVParse p)

/-- A `TagRules` instance whose primary (and only) format is
`p ++ "$version"` under the modelled scheme — the compiled shape of
`TagRules(scheme, tag_format=p+"$version")`. -/
def semverRules (p : String) : TagRules where
  scheme := semverScheme
  tag_format := p ++ "$version"
  version_regexes := [litVRegex p]
  ignored_regexes := []
  merge_prereleases := false

/-- Prefix parser for a literal `p` followed by the lazy wildcard
`(?:.*?)` (the compiled shape of an ignored format `p ++ "*"`): lazily the
wildcard matches the empty string, so a position matches exactly when `p`
starts there. -/
def litStarParse (p : String) (cs : List Char) : Option (PyMatch × List Char) :=
  if p.data.isPrefixOf cs then some (⟨⟨p.data⟩, []⟩, cs.drop p.data.length) else none

/-- The compiled regex of the ignored format `p ++ "*"`: `match` matches any
string starting with `p` (the lazy tail matching nothing), `fullmatch`
stretches the lazy tail over the rest. -/
def litStarRegex (p : String) : PyRegex where
  reMatch t := if p.data.isPrefixOf t.data then some ⟨p, []⟩ else none
  reFullmatch t := if p.data.isPrefixOf t.data then some ⟨t, []⟩ else none
  reFinditer t := scanCore (litStarParse p) (t.data.length + 1) t.data
  full_to_match := by
    intro s h
    by_cases hp : p.data.isPrefixOf s.data <;> simp [hp] at *

/-- `TagRules(tag_format="v$version", ignored_tag_formats=["snapshot-*"])`,
compiled. -/
def snapshotRules : TagRules where
  scheme := semverScheme
  tag_format := "v$version"
  version_regexes := [litVRegex "v"]
  ignored_regexes := [litStarRegex "snapshot-"]
  merge_prereleases := false

/-- `TagRules(tag_format="v$version", changelog_merge_prerelease=True)`,
compiled. -/
def mergeRules : TagRules where
  scheme := semverScheme
  tag_format := "v$version"
  version_regexes := [litVRegex "v"]
  ignored_regexes := []
  merge_prereleases := true

/-- Prefix parser for the regex compiled from the format `"$minor.$patch"`
(no `major` and no `version` group): two digit runs joined by a dot. -/
def pairParse (cs : List Char) : Option (PyMatch × List Char) :=
  let d1 := cs.takeWhile isDigitChar
  let r1 := cs.dropWhile isDigitChar
  if d1.isEmpty then none
  else
    match r1 with
    | '.' :: r2 =>
      let d2 := r2.takeWhile isDigitChar
      if d2.isEmpty then none
      else some (⟨⟨d1 ++ '.' :: d2⟩, [("minor", some ⟨d1⟩), ("patch", some ⟨d2⟩)]⟩,
        r2.dropWhile isDigitChar)
    | _ => none

/-- The compiled regex of the format `"$minor.$patch"`. -/
def pairRegex : PyRegex := regexOfParse pairParse

/-- A `TagRules` instance whose primary format is `"$minor.$patch"` — legal
configuration whose pattern has neither a `version` nor a `major` group. -/
def pairRules : TagRules where
  scheme := semverScheme
  tag_format := "$minor.$patch"
  version_regexes := [pairRegex]
  ignored_regexes := []
  merge_prereleases := false

/-- `TagRules.normalize_tag`: render a version through the (or the primary)
format template with `Template.safe_substitute`.  A falsy `tag_format`
argument (absent or empty) selects the instance's primary format, as
`tag_format or self.tag_format` does. -/
def TagRules.normalize_tag (rules : TagRules) (v : Version) (fmt : Option String) :
    String :=
  let tf :=
    match fmt with
    | some f => if f = "" then rules.tag_format else f
    | none => rules.tag_format
  safeSubstitute
    [("version", rules.scheme.render v),
     ("major", ⟨natToDec v.major⟩),
     ("minor", ⟨natToDec v.minor⟩),
     ("patch", ⟨natToDec v.patch⟩),
     ("prerelease", match v.prerelease with | some p => p | none => "")] tf

/-- Modelled from the spec: the placeholder table of
`commitizen.defaults.get_tag_regexes` (not among the sources here) — each
recognized placeholder mapped to the scheme's sub-pattern for that field,
the whole-version placeholder mapped to the scheme's own pattern. -/
def tagRegexes : List (String × String) :=
  [("$version",
    "(?P<version>(?:0|[1-9][0-9]*)\\.(?:0|[1-9][0-9]*)\\.(?:0|[1-9][0-9]*)(?:-[0-9A-Za-z]+)?)"),
   ("$major", "(?P<major>0|[1-9][0-9]*)"),
   ("$minor", "(?P<minor>0|[1-9][0-9]*)"),
   ("$patch", "(?P<patch>0|[1-9][0-9]*)"),
   ("$prerelease", "(?P<prerelease>[0-9A-Za-z]+)?"),
   ("$devrelease", "(?P<devrelease>[0-9A-Za-z.]+)?")]

/-- `TagRules._format_regex`: optionally expand `*` wildcards into the
non-capturing lazy `(?:.*?)`, then substitute each placeholder by plain
sequential `str.replace` over the placeholder table. -/
def format_regex (tag_pattern : String) (star : Bool) : String :=
  let fr := if star then pyReplace tag_pattern "*" "(?:.*?)" else tag_pattern
  tagRegexes.foldl (fun acc pr => pyReplace acc pr.1 pr.2) fr

/-- The `RE_TITLE` match of `changelog_formats/markdown.py`
(`^(?P<level>#+) (?P<title>.*)$` under `re.match`): a non-empty run of `#`,
one space, then the title — which may not contain a newline, except that
`$` tolerates one final newline, which is not part of the title.  Returns
the level count and the title. -/
def mdTitleMatch (line : String) : Option (Nat × String) :=
  let cs := line.data
  let hashes := cs.takeWhile (fun c => c = '#')
  let rest := cs.dropWhile (fun c => c = '#')
  if hashes.isEmpty then none
  else
    match expectChar ' ' rest with
    | some t =>
      if t.contains '\n' then
        if t.getLast? = some '\n' && !(t.dropLast.contains '\n') then
          some (hashes.length, ⟨t.dropLast⟩)
        else none
      else some (hashes.length, ⟨t⟩)
    | none => none

/-- `Markdown.parse_version_from_title`: match the title regex, then search
the title text for a version (`self.tag_rules.search_version`). -/
def Markdown.parse_version_from_title (rules : TagRules) (line : String) :
    Option (String × String) :=
  match mdTitleMatch line with
  | none => none
  | some x => rules.search_version x.2 false

/-- `Markdown.parse_title_level`: the number of leading `#` characters of a
heading line. -/
def Markdown.parse_title_level (line : String) : Option Nat :=
  (mdTitleMatch line).map (fun x => x.1)

/-- Well-formedness of a `Version` of the modelled scheme: the prerelease
suffix, when present, is a non-empty alphanumeric word (which is what the
scheme's pattern can produce). -/
def Version.WF (v : Version) : Prop :=
  match v.prerelease with
  | none => True
  | some p => p.data ≠ [] ∧ ∀ c ∈ p.data, isAlnumChar c = true

/-! ## Decimal rendering: basic facts -/

theorem natToDecCore_append (fuel : Nat) :
    ∀ n acc, natToDecCore fuel n acc = natToDecCore fuel n [] ++ acc := by
  induction fuel with
  | zero => intro n acc; rfl
  | succ fuel ih =>
    intro n acc
    simp only [natToDecCore]
    by_cases h : n / 10 = 0
    · simp [h]
    · simp only [if_neg h]
      rw [ih (n / 10) (decChar (n % 10) :: acc), ih (n / 10) [decChar (n % 10)]]
      simp

theorem natToDecCore_fuel : ∀ f1 f2 n, n < f1 → n < f2 →
    natToDecCore f1 n [] = natToDecCore f2 n [] := by
  intro f1
  induction f1 with
  | zero => intro f2 n h1 _; omega
  | succ f ih =>
    intro f2 n h1 h2
    cases f2 with
    | zero => omega
    | succ g =>
      simp only [natToDecCore]
      by_cases h : n / 10 = 0
      · simp [h]
      · simp only [if_neg h]
        have hn : 0 < n := by
          rcases Nat.eq_zero_or_pos n with h0 | h0
          · subst h0; simp at h
          · exact h0
        have hd : n / 10 < n := Nat.div_lt_self hn (by omega)
        rw [natToDecCore_append f, natToDecCore_append g]
        rw [ih g (n / 10) (by omega) (by omega)]

theorem natToDec_small {n : Nat} (h : n < 10) : natToDec n = [decChar n] := by
  have h1 : n / 10 = 0 := Nat.div_eq_of_lt h
  have h2 : n % 10 = n := Nat.mod_eq_of_lt h
  simp [natToDec, natToDecCore, h1, h2]

theorem natToDec_step {n : Nat} (h : 10 ≤ n) :
    natToDec n = natToDec (n / 10) ++ [decChar (n % 10)] := by
  have h0 : ¬ n / 10 = 0 := by
    intro hc
    have h1 : 10 / 10 ≤ n / 10 := Nat.div_le_div_right h
    rw [hc] at h1
    omega
  have hd : n / 10 < n := Nat.div_lt_self (by omega) (by omega)
  have hstep : natToDec n
      = if n / 10 = 0 then [decChar (n % 10)]
        else natToDecCore n (n / 10) [decChar (n % 10)] := rfl
  rw [hstep, if_neg h0, natToDecCore_append n, natToDec]
  congr 1
  exact natToDecCore_fuel n (n / 10 + 1) (n / 10) (by omega) (Nat.lt_succ_self _)

theorem decChar_digit {d : Nat} (h : d < 10) : isDigitChar (decChar d) = true := by
  interval_cases d <;> decide

theorem decChar_val {d : Nat} (h : d < 10) : (decChar d).toNat - 48 = d := by
  interval_cases d <;> decide

theorem natToDec_ne_nil (n : Nat) : natToDec n ≠ [] := by
  by_cases h : n < 10
  · rw [natToDec_small h]; simp
  · rw [natToDec_step (by omega)]; simp

theorem natToDec_digits (n : Nat) : ∀ c ∈ natToDec n, isDigitChar c = true := by
  induction n using Nat.strong_induction_on with
  | _ n ih =>
    by_cases h : n < 10
    · rw [natToDec_small h]
      intro c hc
      simp only [List.mem_singleton] at hc
      subst hc
      exact decChar_digit h
    · rw [natToDec_step (by omega)]
      intro c hc
      rcases List.mem_append.mp hc with h1 | h1
      · exact ih (n / 10) (Nat.div_lt_self (by omega) (by omega)) c h1
      · simp only [List.mem_singleton] at h1
        subst h1
        exact decChar_digit (Nat.mod_lt _ (by omega))

theorem decValue_natToDec (n : Nat) : decValue (natToDec n) = n := by
  induction n using Nat.strong_induction_on with
  | _ n ih =>
    by_cases h : n < 10
    · rw [natToDec_small h]
      show 10 * 0 + ((decChar n).toNat - 48) = n
      rw [decChar_val h]
      omega
    · rw [natToDec_step (by omega)]
      unfold decValue
      rw [List.foldl_append]
      show 10 * (decValue (natToDec (n / 10))) + ((decChar (n % 10)).toNat - 48) = n
      rw [ih (n / 10) (Nat.div_lt_self (by omega) (by omega)),
        decChar_val (Nat.mod_lt _ (by omega))]
      omega

/-! ## Parser facts -/

theorem takeWhile_all_append (p : Char → Bool) :
    ∀ (A rest : List Char), (∀ c ∈ A, p c = true) →
      (∀ c, rest.head? = some c → p c = false) →
      (A ++ rest).takeWhile p = A ∧ (A ++ rest).dropWhile p = rest := by
  intro A
  induction A with
  | nil =>
    intro rest _ hrest
    cases rest with
    | nil => exact ⟨rfl, rfl⟩
    | cons c r =>
      constructor
      · simp [List.takeWhile_cons, hrest c rfl]
      · simp [List.dropWhile_cons, hrest c rfl]
  | cons a A ih =>
    intro rest hA hrest
    have ha : p a = true := hA a (by simp)
    have hrec := ih rest (fun c hc => hA c (by simp [hc])) hrest
    constructor
    · simp [List.takeWhile_cons, ha, hrec.1]
    · simp [List.dropWhile_cons, ha, hrec.2]

theorem expectChar_sound {c : Char} {cs r : List Char}
    (h : expectChar c cs = some r) : cs = c :: r := by
  cases cs with
  | nil => simp [expectChar] at h
  | cons x xs =>
    rw [expectChar] at h
    by_cases hx : x = c
    · subst hx
      rw [if_pos rfl] at h
      simp at h
      simp [h]
    · rw [if_neg hx] at h
      simp at h

theorem expectChar_cons (c : Char) (r : List Char) : expectChar c (c :: r) = some r := by
  simp [expectChar]

theorem parseNatC_sound {cs : List Char} {n : Nat} {d r : List Char}
    (h : parseNatC cs = some (n, d, r)) :
    cs = d ++ r ∧ natToDec n = d := by
  simp only [parseNatC] at h
  split at h
  · simp at h
  · split at h
    · simp only [Option.some.injEq, Prod.mk.injEq] at h
      obtain ⟨hn, hd, hr⟩ := h
      subst hn
      subst hd
      subst hr
      refine ⟨(List.takeWhile_append_dropWhile ..).symm, ?_⟩
      assumption
    · simp at h

theorem parseNatC_complete (n : Nat) (rest : List Char)
    (hrest : ∀ c, rest.head? = some c → isDigitChar c = false) :
    parseNatC (natToDec n ++ rest) = some (n, natToDec n, rest) := by
  obtain ⟨ht, hd⟩ := takeWhile_all_append isDigitChar (natToDec n) rest (natToDec_digits n) hrest
  unfold parseNatC
  simp only [ht, hd]
  rw [if_neg (by simp [natToDec_ne_nil n]), decValue_natToDec, if_pos rfl]

theorem stripL_sound : ∀ (p cs r : List Char), stripL p cs = some r → cs = p ++ r := by
  intro p
  induction p with
  | nil =>
    intro cs r h
    simp only [stripL, Option.some.injEq] at h
    simp [h]
  | cons a p ih =>
    intro cs r h
    cases cs with
    | nil => simp [stripL] at h
    | cons c cs =>
      rw [stripL] at h
      by_cases hac : a = c
      · subst hac
        rw [if_pos rfl] at h
        have := ih cs r h
        simp [this]
      · rw [if_neg hac] at h
        simp at h

theorem stripL_append : ∀ (p r : List Char), stripL p (p ++ r) = some r := by
  intro p
  induction p with
  | nil => intro r; rfl
  | cons a p ih =>
    intro r
    simp only [List.cons_append, stripL, if_pos rfl]
    exact ih r

theorem vparse_sound {cs : List Char} {v : Version} {d r : List Char}
    (h : vparse cs = some (v, d, r)) :
    cs = d ++ r ∧ renderChars v = d ∧ v.WF := by
  unfold vparse at h
  split at h
  · simp at h
  rename_i ma d1 r1 h1
  split at h
  · simp at h
  rename_i r2 h2
  split at h
  · simp at h
  rename_i mi d2 r3 h3
  split at h
  · simp at h
  rename_i r4 h4
  split at h
  · simp at h
  rename_i pa d3 r5 h5
  obtain ⟨hcs1, hd1⟩ := parseNatC_sound h1
  have hr1 : r1 = '.' :: r2 := expectChar_sound h2
  obtain ⟨hcs2, hd2⟩ := parseNatC_sound h3
  have hr3 : r3 = '.' :: r4 := expectChar_sound h4
  obtain ⟨hcs3, hd3⟩ := parseNatC_sound h5
  have hfin : cs = (d1 ++ '.' :: d2 ++ '.' :: d3) ++ r5 := by
    subst hcs1
    rw [hr1, hcs2, hr3, hcs3]
    simp
  split at h
  · rename_i r6 h6
    have hr5 : r5 = '-' :: r6 := expectChar_sound h6
    split at h
    · rename_i hpre
      simp only [Option.some.injEq, Prod.mk.injEq] at h
      obtain ⟨hv, hd, hr⟩ := h
      subst hv
      subst hd
      subst hr
      refine ⟨hfin, ?_, trivial⟩
      simp [renderChars, hd1, hd2, hd3]
    · rename_i hpre
      simp only [Option.some.injEq, Prod.mk.injEq] at h
      obtain ⟨hv, hd, hr⟩ := h
      subst hv
      subst hd
      subst hr
      refine ⟨?_, ?_, ?_⟩
      · rw [hfin, hr5]
        have hsplit : r6 = r6.takeWhile isAlnumChar ++ r6.dropWhile isAlnumChar :=
          (List.takeWhile_append_dropWhile ..).symm
        conv_lhs => rw [hsplit]
        simp
      · simp [renderChars, hd1, hd2, hd3]
      · refine ⟨?_, ?_⟩
        · intro hc
          rw [show ((⟨r6.takeWhile isAlnumChar⟩ : String)).data
              = r6.takeWhile isAlnumChar from rfl] at hc
          simp [hc] at hpre
        · intro c hc
          rw [show ((⟨r6.takeWhile isAlnumChar⟩ : String)).data
              = r6.takeWhile isAlnumChar from rfl] at hc
          exact List.mem_takeWhile_imp hc
  · rename_i h6
    simp only [Option.some.injEq, Prod.mk.injEq] at h
    obtain ⟨hv, hd, hr⟩ := h
    subst hv
    subst hd
    subst hr
    refine ⟨hfin, ?_, trivial⟩
    simp [renderChars, hd1, hd2, hd3]

theorem head_cons_not_digit (c : Char) (t : List Char) (hc : isDigitChar c = false) :
    ∀ x, (c :: t).head? = some x → isDigitChar x = false := by
  intro x hx
  simp only [List.head?_cons, Option.some.injEq] at hx
  subst hx
  exact hc

theorem vparse_complete {v : Version} (hwf : v.WF) :
    vparse (renderChars v) = some (v, renderChars v, []) := by
  obtain ⟨ma, mi, pa, pre⟩ := v
  cases pre with
  | none =>
    have hshape : renderChars ⟨ma, mi, pa, none⟩
        = natToDec ma ++ '.' :: (natToDec mi ++ '.' :: natToDec pa) := by
      simp [renderChars]
    have e1 : parseNatC (natToDec ma ++ '.' :: (natToDec mi ++ '.' :: natToDec pa))
        = some (ma, natToDec ma, '.' :: (natToDec mi ++ '.' :: natToDec pa)) :=
      parseNatC_complete ma _ (head_cons_not_digit '.' _ (by decide))
    have e2 : parseNatC (natToDec mi ++ '.' :: natToDec pa)
        = some (mi, natToDec mi, '.' :: natToDec pa) :=
      parseNatC_complete mi _ (head_cons_not_digit '.' _ (by decide))
    have e3 : parseNatC (natToDec pa) = some (pa, natToDec pa, []) := by
      have := parseNatC_complete pa [] (by intro c hc; simp at hc)
      simpa using this
    rw [hshape]
    simp only [vparse, e1, expectChar_cons, e2, e3]
    have e4 : expectChar '-' ([] : List Char) = none := rfl
    simp only [e4]
    simp
  | some p =>
    obtain ⟨hp1, hp2⟩ := hwf
    have hshape : renderChars ⟨ma, mi, pa, some p⟩
        = natToDec ma ++ '.' :: (natToDec mi ++ '.' :: (natToDec pa ++ '-' :: p.data)) := by
      simp [renderChars]
    have e1 : parseNatC
          (natToDec ma ++ '.' :: (natToDec mi ++ '.' :: (natToDec pa ++ '-' :: p.data)))
        = some (ma, natToDec ma,
            '.' :: (natToDec mi ++ '.' :: (natToDec pa ++ '-' :: p.data))) :=
      parseNatC_complete ma _ (head_cons_not_digit '.' _ (by decide))
    have e2 : parseNatC (natToDec mi ++ '.' :: (natToDec pa ++ '-' :: p.data))
        = some (mi, natToDec mi, '.' :: (natToDec pa ++ '-' :: p.data)) :=
      parseNatC_complete mi _ (head_cons_not_digit '.' _ (by decide))
    have e3 : parseNatC (natToDec pa ++ '-' :: p.data)
        = some (pa, natToDec pa, '-' :: p.data) :=
      parseNatC_complete pa _ (head_cons_not_digit '-' _ (by decide))
    have htake : p.data.takeWhile isAlnumChar = p.data := by
      have := takeWhile_all_append isAlnumChar p.data [] hp2 (by intro c hc; simp at hc)
      simpa using this.1
    have hdrop : p.data.dropWhile isAlnumChar = [] := by
      have := takeWhile_all_append isAlnumChar p.data [] hp2 (by intro c hc; simp at hc)
      simpa using this.2
    rw [hshape]
    simp only [vparse, e1, expectChar_cons, e2, e3, htake, hdrop]
    rw [if_neg (by simp [htake, hp1])]
    have hps : (⟨p.data⟩ : String) = p := rfl
    simp [hps, htake]

/-! ## Template substitution facts -/

theorem safeSubstCore_nil (mp : List (String × String)) :
    ∀ fuel, safeSubstCore mp fuel [] = [] := by
  intro fuel
  cases fuel with
  | zero => rfl
  | succ f => rfl

theorem safeSubstCore_lit (mp : List (String × String)) :
    ∀ (lit : List Char) (fuel : Nat) (rest : List Char),
      (∀ c ∈ lit, c ≠ '$') →
      safeSubstCore mp fuel (lit ++ rest)
        = lit ++ safeSubstCore mp (fuel - lit.length) rest := by
  intro lit
  induction lit with
  | nil =>
    intro fuel rest _
    simp
  | cons a l ih =>
    intro fuel rest hlit
    have ha : ¬ a = '$' := hlit a (by simp)
    cases fuel with
    | zero =>
      simp only [safeSubstCore, Nat.zero_sub, List.cons_append]
    | succ f =>
      simp only [List.cons_append, safeSubstCore, if_neg ha, List.append_eq]
      rw [ih f rest (fun c hc => hlit c (by simp [hc]))]
      simp [Nat.succ_sub_succ]

theorem safeSubstCore_version (mp : List (String × String)) (val : String)
    (hmp : List.lookup "version" mp = some val) :
    ∀ fuel, 1 ≤ fuel →
      safeSubstCore mp fuel ('$' :: 'v' :: 'e' :: 'r' :: 's' :: 'i' :: 'o' :: 'n' :: [])
        = val.data := by
  intro fuel hf
  cases fuel with
  | zero => omega
  | succ f =>
    have hkey : (⟨['v', 'e', 'r', 's', 'i', 'o', 'n']⟩ : String) = "version" := rfl
    simp +decide [safeSubstCore, idStart, idCont, hkey, hmp, safeSubstCore_nil]

theorem safeSubstitute_lit_version (mp : List (String × String)) (val : String)
    (p : String) (hp : ∀ c ∈ p.data, c ≠ '$')
    (hmp : List.lookup "version" mp = some val) :
    safeSubstitute mp (p ++ "$version") = p ++ val := by
  unfold safeSubstitute
  have hdata : (p ++ "$version").data
      = p.data ++ ('$' :: 'v' :: 'e' :: 'r' :: 's' :: 'i' :: 'o' :: 'n' :: []) := rfl
  rw [hdata, safeSubstCore_lit mp p.data _ _ hp]
  have hfuel : (p.data ++ ('$' :: 'v' :: 'e' :: 'r' :: 's' :: 'i' :: 'o' :: 'n' :: [])).length
      + 1 - p.data.length = 9 := by
    simp [List.length_append]
    omega
  rw [hfuel, safeSubstCore_version mp val hmp 9 (by omega)]
  rfl

/-! ## `str.replace` facts -/

theorem replaceCore_no_dollar_key (k rep : List Char) :
    ∀ (fuel : Nat) (s : List Char), '$' ∉ s →
      replaceCore ('$' :: k) rep fuel s = s := by
  intro fuel
  induction fuel with
  | zero => intro s _; rfl
  | succ f ih =>
    intro s hs
    cases s with
    | nil => rfl
    | cons c cs =>
      have hc : ¬ '$' = c := by
        intro h
        exact hs (by rw [h]; exact List.mem_cons_self c cs)
      have hpre : ¬ ('$' :: k).isPrefixOf (c :: cs) = true := by
        intro hp
        simp only [List.isPrefixOf, Bool.and_eq_true, beq_iff_eq] at hp
        exact hc hp.1
      rw [replaceCore, if_neg hpre]
      have : '$' ∉ cs := fun h => hs (List.mem_cons_of_mem _ h)
      rw [ih cs this]

theorem mem_replaceCore (pat rep : List Char) :
    ∀ (fuel : Nat) (s : List Char) (c : Char),
      c ∈ replaceCore pat rep fuel s → c ∈ s ∨ c ∈ rep := by
  intro fuel
  induction fuel with
  | zero => intro s c h; exact Or.inl h
  | succ f ih =>
    intro s c h
    cases s with
    | nil => simp [replaceCore] at h
    | cons a as =>
      rw [replaceCore] at h
      by_cases hp : pat.isPrefixOf (a :: as) = true
      · rw [if_pos hp] at h
        rcases List.mem_append.mp h with h1 | h1
        · exact Or.inr h1
        · rcases ih _ c h1 with h2 | h2
          · exact Or.inl (List.mem_of_mem_drop h2)
          · exact Or.inr h2
      · rw [if_neg hp] at h
        rcases List.mem_cons.mp h with h1 | h1
        · exact Or.inl (by simp [h1])
        · rcases ih as c h1 with h2 | h2
          · exact Or.inl (List.mem_cons_of_mem _ h2)
          · exact Or.inr h2

theorem pyReplace_no_dollar (s k rep : String) (t : List Char)
    (hkt : k.data = '$' :: t) (hs : '$' ∉ s.data) : pyReplace s k rep = s := by
  unfold pyReplace
  rw [if_neg (by simp [hkt])]
  rw [hkt, replaceCore_no_dollar_key t rep.data _ s.data hs]

theorem pyReplace_star_no_dollar (p : String) (hp : '$' ∉ p.data) :
    '$' ∉ (pyReplace p "*" "(?:.*?)").data := by
  unfold pyReplace
  rw [if_neg (by decide)]
  intro hmem
  rcases mem_replaceCore "*".data "(?:.*?)".data _ p.data '$' hmem with h | h
  · exact hp h
  · revert h
    decide

/-! ## First-hit scans over the regex lists -/

theorem firstFull_append : ∀ (rs1 rs2 : List PyRegex) (tag : String),
    (∀ r ∈ rs1, r.reFullmatch tag = none) →
    firstFull (rs1 ++ rs2) tag = firstFull rs2 tag := by
  intro rs1
  induction rs1 with
  | nil => intro rs2 tag _; rfl
  | cons r rs ih =>
    intro rs2 tag h
    have h0 : r.reFullmatch tag = none := h r (by simp)
    simp only [List.cons_append, firstFull, h0]
    exact ih rs2 tag (fun q hq => h q (by simp [hq]))

theorem firstFull_none_iff : ∀ (rs : List PyRegex) (tag : String),
    firstFull rs tag = none ↔ ∀ r ∈ rs, r.reFullmatch tag = none := by
  intro rs
  induction rs with
  | nil => intro tag; simp [firstFull]
  | cons r rs ih =>
    intro tag
    constructor
    · intro h q hq
      rw [firstFull] at h
      cases hm : r.reFullmatch tag with
      | some m => rw [hm] at h; simp at h
      | none =>
        rw [hm] at h
        rcases List.mem_cons.mp hq with h1 | h1
        · rw [h1]; exact hm
        · exact (ih tag).mp h q h1
    · intro h
      rw [firstFull, h r (by simp)]
      exact (ih tag).mpr (fun q hq => h q (by simp [hq]))

theorem firstFull_mem : ∀ (rs : List PyRegex) (tag : String) (m : PyMatch),
    firstFull rs tag = some m → ∃ r ∈ rs, r.reFullmatch tag = some m := by
  intro rs
  induction rs with
  | nil => intro tag m h; simp [firstFull] at h
  | cons r rs ih =>
    intro tag m h
    rw [firstFull] at h
    cases hm : r.reFullmatch tag with
    | some mm =>
      rw [hm] at h
      simp only [Option.some.injEq] at h
      exact ⟨r, by simp, by rw [hm, h]⟩
    | none =>
      rw [hm] at h
      obtain ⟨q, hq1, hq2⟩ := ih tag m h
      exact ⟨q, by simp [hq1], hq2⟩

theorem firstMatches_append : ∀ (rs1 rs2 : List PyRegex) (txt : String),
    (∀ r ∈ rs1, r.reFinditer txt = []) →
    firstMatches (rs1 ++ rs2) txt = firstMatches rs2 txt := by
  intro rs1
  induction rs1 with
  | nil => intro rs2 txt _; rfl
  | cons r rs ih =>
    intro rs2 txt h
    have h0 : r.reFinditer txt = [] := h r (by simp)
    simp only [List.cons_append, firstMatches, h0]
    exact ih rs2 txt (fun q hq => h q (by simp [hq]))

theorem firstMatches_none_iff : ∀ (rs : List PyRegex) (txt : String),
    firstMatches rs txt = none ↔ ∀ r ∈ rs, r.reFinditer txt = [] := by
  intro rs
  induction rs with
  | nil => intro txt; simp [firstMatches]
  | cons r rs ih =>
    intro txt
    constructor
    · intro h q hq
      rw [firstMatches] at h
      cases hm : r.reFinditer txt with
      | cons m ms => rw [hm] at h; simp at h
      | nil =>
        rw [hm] at h
        rcases List.mem_cons.mp hq with h1 | h1
        · rw [h1]; exact hm
        · exact (ih txt).mp h q h1
    · intro h
      rw [firstMatches, h r (by simp)]
      exact (ih txt).mpr (fun q hq => h q (by simp [hq]))

theorem firstMatches_cons_ne (r : PyRegex) (rs : List PyRegex) (txt : String)
    (h : r.reFinditer txt ≠ []) :
    firstMatches (r :: rs) txt = some (r.reFinditer txt) := by
  rw [firstMatches]
  cases hm : r.reFinditer txt with
  | nil => exact absurd hm h
  | cons m ms => rfl

/-! ## Tag selection -/

theorem select_tag_fst (rules : TagRules) (tag : GitTag) (warn : Bool) :
    (rules.select_tag tag warn).1 = rules.is_version_tag tag.name := by
  unfold TagRules.select_tag
  by_cases hv : rules.is_version_tag tag.name = true
  · simp [hv]
  · simp only [Bool.not_eq_true] at hv
    rw [hv]
    simp only [Bool.false_eq_true, if_false]
    split <;> rfl

theorem select_tag_snd (rules : TagRules) (tag : GitTag) (warn : Bool) :
    (rules.select_tag tag warn).2
      = if warn && !rules.is_version_tag tag.name && !rules.is_ignored_tag tag.name
        then [tag.name] else [] := by
  unfold TagRules.select_tag
  by_cases hv : rules.is_version_tag tag.name = true
  · simp [hv]
  · simp only [Bool.not_eq_true] at hv
    rw [hv]
    simp only [Bool.false_eq_true, if_false, Bool.not_false, Bool.and_true]
    split <;> rfl

theorem get_version_tags_fst (rules : TagRules) :
    ∀ (tags : List GitTag) (warn : Bool),
      (rules.get_version_tags tags warn).1
        = tags.filter (fun t => rules.is_version_tag t.name) := by
  intro tags
  induction tags with
  | nil => intro warn; rfl
  | cons t ts ih =>
    intro warn
    rw [TagRules.get_version_tags]
    simp only [select_tag_fst, List.filter_cons]
    by_cases hv : rules.is_version_tag t.name = true
    · simp only [hv, if_true]
      rw [ih warn]
    · simp only [Bool.not_eq_true] at hv
      simp only [hv, Bool.false_eq_true, if_false]
      rw [ih warn]

theorem get_version_tags_snd (rules : TagRules) :
    ∀ (tags : List GitTag) (warn : Bool),
      (rules.get_version_tags tags warn).2
        = (tags.filter (fun t =>
            warn && !rules.is_version_tag t.name && !rules.is_ignored_tag t.name)).map
            (fun t => t.name) := by
  intro tags
  induction tags with
  | nil => intro warn; rfl
  | cons t ts ih =>
    intro warn
    rw [TagRules.get_version_tags]
    simp only [select_tag_snd, List.filter_cons]
    by_cases hc : (warn && !rules.is_version_tag t.name && !rules.is_ignored_tag t.name) = true
    · simp only [hc, if_true]
      rw [ih warn]
      rfl
    · simp only [hc, Bool.false_eq_true, if_false]
      rw [ih warn]
      simp

/-! ## The claims -/

theorem litVRegex_fullmatch (p t : String) :
    (litVRegex p).reFullmatch t
      = match litVParse p t.data with
        | some (m, []) => some m
        | _ => none := rfl

theorem litVRegex_match (p t : String) :
    (litVRegex p).reMatch t = (litVParse p t.data).map (fun x => x.1) := rfl

/-- **C1.** Every tag string `t` that fully matches the primary tag format —
here any lossless format built as a regex-literal, placeholder-free prefix
`p` followed by the `$version` placeholder, compiled to `litVRegex p` — is a
version tag, `extract_version` succeeds on it, and `normalize_tag` of the
extracted version under the primary format reproduces `t` exactly. -/
theorem claim_C1 (p : String) (t : String)
    (hp : ∀ c ∈ p.data, c ≠ '$')
    (h : ((litVRegex p).reFullmatch t).isSome = true) :
    (semverRules p).is_version_tag t = true ∧
    ∃ ver, (semverRules p).extract_version ⟨t⟩ = .ok ver ∧
      (semverRules p).normalize_tag ver none = t := by
  rw [litVRegex_fullmatch] at h
  cases hpp : litVParse p t.data with
  | none => rw [hpp] at h; simp at h
  | some x =>
    obtain ⟨m, rest⟩ := x
    rw [hpp] at h
    cases rest with
    | cons c cs => simp at h
    | nil =>
      unfold litVParse at hpp
      split at hpp
      · simp at hpp
      rename_i cs' hstrip
      split at hpp
      · simp at hpp
      rename_i v d r hvp
      simp only [Option.some.injEq, Prod.mk.injEq] at hpp
      obtain ⟨hm, hr⟩ := hpp
      subst hr
      obtain ⟨hcs', hrender, hwf⟩ := vparse_sound hvp
      rw [List.append_nil] at hcs'
      subst hcs'
      have hstripS := stripL_sound p.data t.data cs' hstrip
      have hfull : (litVRegex p).reFullmatch t = some m := by
        rw [litVRegex_fullmatch]
        unfold litVParse
        simp only [hstrip, hvp]
        rw [hm]
      refine ⟨?_, v, ?_, ?_⟩
      · simp only [semverRules, TagRules.is_version_tag, List.any_cons, List.any_nil,
          Bool.or_false]
        rw [litVRegex_match]
        unfold litVParse
        simp only [hstrip, hvp]
        rfl
      · have h1 : firstFull [litVRegex p] t = some m := by
          simp only [firstFull, hfull]
        have h2 : version_string m = some ⟨cs'⟩ := by
          rw [← hm]
          rfl
        have h3 : semverScheme.parse ⟨cs'⟩ = some v := by
          show (match vparse (⟨cs'⟩ : String).data with
            | some (v, _, []) => some v
            | _ => none) = some v
          rw [show ((⟨cs'⟩ : String)).data = cs' from rfl]
          simp only [hvp]
        show TagRules.extract_version (semverRules p) ⟨t⟩ = ExtractResult.ok v
        simp only [TagRules.extract_version, semverRules] at h1 ⊢
        simp only [h1, h2, h3]
      · show safeSubstitute
          [("version", (semverRules p).scheme.render v),
           ("major", ⟨natToDec v.major⟩), ("minor", ⟨natToDec v.minor⟩),
           ("patch", ⟨natToDec v.patch⟩),
           ("prerelease", match v.prerelease with | some q => q | none => "")]
          ((semverRules p).tag_format) = t
        rw [show (semverRules p).tag_format = p ++ "$version" from rfl]
        rw [safeSubstitute_lit_version _ ((semverRules p).scheme.render v) p hp (by rfl)]
        show p ++ (⟨renderChars v⟩ : String) = t
        rw [hrender]
        show (⟨p.data ++ cs'⟩ : String) = t
        rw [← hstripS]

/-- Witness for C1: the spec's example format `v$version` and the concrete
tag `v1.2.3-rc1`. -/
theorem claim_C1_witness :
    (semverRules "v").is_version_tag "v1.2.3-rc1" = true ∧
    ∃ ver, (semverRules "v").extract_version ⟨"v1.2.3-rc1"⟩ = .ok ver ∧
      (semverRules "v").normalize_tag ver none = "v1.2.3-rc1" :=
  claim_C1 "v" "v1.2.3-rc1" (by decide) (by decide)

/-- **C2.** In `search_version` the regexes are consulted in precedence
order: if every regex before `r` yields no match in the text and `r` yields
at least one, then the result is assembled from the first (`last = false`)
or last (`last = true`) of `r`'s matches, and regexes after `r` are never
consulted — replacing them by any other list leaves the result unchanged. -/
theorem claim_C2 (sch : Scheme) (fmt : String) (ig : List PyRegex) (mp : Bool)
    (rs1 rs2 : List PyRegex) (r : PyRegex) (txt : String) (last : Bool)
    (h1 : ∀ q ∈ rs1, q.reFinditer txt = [])
    (h2 : r.reFinditer txt ≠ []) :
    (TagRules.search_version ⟨sch, fmt, rs1 ++ r :: rs2, ig, mp⟩ txt last
        = (if last then (r.reFinditer txt).getLast? else (r.reFinditer txt).head?).bind
            searchAssemble)
    ∧ ∀ rs2' : List PyRegex,
        TagRules.search_version ⟨sch, fmt, rs1 ++ r :: rs2, ig, mp⟩ txt last
          = TagRules.search_version ⟨sch, fmt, rs1 ++ r :: rs2', ig, mp⟩ txt last := by
  have key : ∀ rs' : List PyRegex,
      firstMatches (rs1 ++ r :: rs') txt = some (r.reFinditer txt) := by
    intro rs'
    rw [firstMatches_append rs1 (r :: rs') txt h1]
    exact firstMatches_cons_ne r rs' txt h2
  constructor
  · simp only [TagRules.search_version, key rs2, pickMatch]
  · intro rs2'
    simp only [TagRules.search_version, key rs2, key rs2']

/-- Witness for C2: primary format `v$version` alone, text with two
occurrences, `last = true`. -/
theorem claim_C2_witness :
    TagRules.search_version ⟨semverScheme, "v$version", [] ++ litVRegex "v" :: [], [], false⟩
        "v1.2.3 v2.0.0" true
      = (if true then ((litVRegex "v").reFinditer "v1.2.3 v2.0.0").getLast?
         else ((litVRegex "v").reFinditer "v1.2.3 v2.0.0").head?).bind searchAssemble :=
  (claim_C2 semverScheme "v$version" [] false [] [] (litVRegex "v") "v1.2.3 v2.0.0" true
    (by simp) (by decide)).1

/-- **C3.** `extract_version` demands a full match: it fails with
`InvalidVersion` exactly when no configured regex fully matches the tag name
or the scheme rejects the assembled version string; and with the regexes
split as `rs1 ++ r :: rs2` where everything before `r` fails to fully match
and `r` fully matches with `m`, the result is built from `m` alone (primary
format first, then legacy formats in configured order). -/
theorem claim_C3 (rules : TagRules) (tag : GitTag) :
    (rules.extract_version tag = .invalidVersion ↔
      (∀ r ∈ rules.version_regexes, r.reFullmatch tag.name = none) ∨
      (∃ m s, firstFull rules.version_regexes tag.name = some m ∧
        version_string m = some s ∧ rules.scheme.parse s = none))
    ∧ (∀ (rs1 rs2 : List PyRegex) (r : PyRegex) (m : PyMatch),
        rules.version_regexes = rs1 ++ r :: rs2 →
        (∀ q ∈ rs1, q.reFullmatch tag.name = none) →
        r.reFullmatch tag.name = some m →
        rules.extract_version tag
          = match version_string m with
            | none => ExtractResult.keyError
            | some s =>
              match rules.scheme.parse s with
              | none => ExtractResult.invalidVersion
              | some v => ExtractResult.ok v) := by
  constructor
  · cases hf : firstFull rules.version_regexes tag.name with
    | none =>
      constructor
      · intro _
        exact Or.inl ((firstFull_none_iff _ _).mp hf)
      · intro _
        simp only [TagRules.extract_version, hf]
    | some m =>
      have hnotall : ¬ ∀ r ∈ rules.version_regexes, r.reFullmatch tag.name = none := by
        intro hall
        rw [(firstFull_none_iff _ _).mpr hall] at hf
        simp at hf
      cases hv : version_string m with
      | none =>
        constructor
        · intro habs
          simp only [TagRules.extract_version, hf, hv] at habs
          exact ExtractResult.noConfusion habs
        · intro hor
          rcases hor with hall | ⟨m', s', hm', hv', hp'⟩
          · exact absurd hall hnotall
          · simp only [Option.some.injEq] at hm'
            rw [← hm', hv] at hv'
            exact Option.noConfusion hv'
      | some s =>
        cases hp : rules.scheme.parse s with
        | none =>
          constructor
          · intro _
            exact Or.inr ⟨m, s, rfl, hv, hp⟩
          · intro _
            simp only [TagRules.extract_version, hf, hv, hp]
        | some v =>
          constructor
          · intro habs
            simp only [TagRules.extract_version, hf, hv, hp] at habs
            exact ExtractResult.noConfusion habs
          · intro hor
            rcases hor with hall | ⟨m', s', hm', hv', hp'⟩
            · exact absurd hall hnotall
            · simp only [Option.some.injEq] at hm'
              rw [← hm', hv] at hv'
              simp only [Option.some.injEq] at hv'
              rw [← hv', hp] at hp'
              exact Option.noConfusion hp'
  · intro rs1 rs2 r m hre hnone hr
    have hff : firstFull rules.version_regexes tag.name = some m := by
      rw [hre, firstFull_append rs1 (r :: rs2) tag.name hnone]
      simp only [firstFull, hr]
    simp only [TagRules.extract_version, hff]

/-- Witness for C3: with format `v$version` the tag `vX` is fully matched by
no regex, so extraction raises `InvalidVersion`. -/
theorem claim_C3_witness :
    (semverRules "v").extract_version ⟨"vX"⟩ = .invalidVersion :=
  (claim_C3 (semverRules "v") ⟨"vX"⟩).1.mpr (Or.inl (by decide))

/-- **C4.** `get_version_tags` returns exactly the subsequence of its input
for which `is_version_tag` holds — `List.filter` preserves the input order
and keeps duplicates, so no reordering and no deduplication happen — and the
`warn` flag has no influence on the selection. -/
theorem claim_C4 (rules : TagRules) (tags : List GitTag) (warn : Bool) :
    (rules.get_version_tags tags warn).1
      = tags.filter (fun t => rules.is_version_tag t.name) :=
  get_version_tags_fst rules tags warn

/-- **C5.** A warning is emitted for a tag exactly when `warn` is set, the
tag is not a version tag and it is not an ignored tag; warnings are a side
channel that never changes (in particular never aborts) the filtered result;
an ignored non-version tag is excluded silently even with `warn` on. -/
theorem claim_C5 (rules : TagRules) (tags : List GitTag) (warn : Bool) :
    ((rules.get_version_tags tags warn).2
      = (tags.filter (fun t =>
          warn && !rules.is_version_tag t.name && !rules.is_ignored_tag t.name)).map
          (fun t => t.name))
    ∧ (rules.get_version_tags tags warn).1 = (rules.get_version_tags tags false).1 := by
  refine ⟨get_version_tags_snd rules tags warn, ?_⟩
  rw [get_version_tags_fst rules tags warn, get_version_tags_fst rules tags false]

/-- **C8.** `include_in_changelog` returns `False` when extraction raises
`InvalidVersion` (the exception is caught, not propagated: the call still
returns), returns `False` when `merge_prereleases` is set and the extracted
version is a prerelease, and returns `True` for any other extracted
version. -/
theorem claim_C8 (rules : TagRules) (tag : GitTag) :
    (rules.extract_version tag = .invalidVersion →
      rules.include_in_changelog tag = some false)
    ∧ (∀ v, rules.extract_version tag = .ok v →
        rules.include_in_changelog tag
          = some (!(rules.merge_prereleases && v.is_prerelease))) := by
  constructor
  · intro h
    simp only [TagRules.include_in_changelog, h]
  · intro v h
    simp only [TagRules.include_in_changelog, h]
    by_cases hb : (rules.merge_prereleases && v.is_prerelease) = true
    · rw [if_pos hb, hb]
      rfl
    · rw [if_neg hb]
      simp only [Bool.not_eq_true] at hb
      rw [hb]
      rfl

/-- Witness for C8: `vX` fails extraction under format `v$version` and is
still reported (as excluded) rather than raising; with
`changelog_merge_prerelease` on, `v2.0.0-rc1` is excluded and `v2.0.0` is
kept. -/
theorem claim_C8_witness :
    (semverRules "v").include_in_changelog ⟨"vX"⟩ = some false ∧
    mergeRules.include_in_changelog ⟨"v2.0.0-rc1"⟩ = some false ∧
    mergeRules.include_in_changelog ⟨"v2.0.0"⟩ = some true :=
  ⟨(claim_C8 (semverRules "v") ⟨"vX"⟩).1 (by decide),
   (claim_C8 mergeRules ⟨"v2.0.0-rc1"⟩).2 ⟨2, 0, 0, some "rc1"⟩ (by decide),
   (claim_C8 mergeRules ⟨"v2.0.0"⟩).2 ⟨2, 0, 0, none⟩ (by decide)⟩

/-- **C9.** If `extract_version` succeeds then `is_version_tag` holds for
the tag name (a full match is in particular a start-anchored match); the
converse fails: with format `v$version`, `v1.2.3junk` is a version tag by
prefix match but extraction, which requires the whole name to be consumed,
raises `InvalidVersion`. -/
theorem claim_C9 :
    (∀ (rules : TagRules) (tag : GitTag) (v : Version),
      rules.extract_version tag = .ok v → rules.is_version_tag tag.name = true)
    ∧ ((semverRules "v").is_version_tag "v1.2.3junk" = true ∧
        (semverRules "v").extract_version ⟨"v1.2.3junk"⟩ = .invalidVersion) := by
  constructor
  · intro rules tag v h
    unfold TagRules.extract_version at h
    cases hf : firstFull rules.version_regexes tag.name with
    | none =>
      rw [hf] at h
      exact ExtractResult.noConfusion h
    | some m =>
      obtain ⟨r, hrmem, hrfull⟩ := firstFull_mem _ _ _ hf
      have hmatch := r.full_to_match tag.name (by rw [hrfull]; rfl)
      unfold TagRules.is_version_tag
      rw [List.any_eq_true]
      exact ⟨r, hrmem, hmatch⟩
  · exact ⟨by decide, by decide⟩

/-- Witness for C9: extraction succeeds on `v1.2.3`, so it is a version
tag. -/
theorem claim_C9_witness :
    (semverRules "v").is_version_tag "v1.2.3" = true :=
  claim_C9.1 (semverRules "v") ⟨"v1.2.3"⟩ ⟨1, 2, 3, none⟩ (by decide)

/-- **C6 (counterexample).** The claim asserts that substituting `$version`
leaves a literal `$versionX` intact.  It does not: `_format_regex` uses
plain sequential `str.replace`, which replaces the `$version` prefix of the
longer token, so the template `"$versionX"` compiles to the version pattern
followed by `X` instead of staying `"$versionX"`. -/
theorem claim_C6_counterexample :
    format_regex "$versionX" false
      = "(?P<version>(?:0|[1-9][0-9]*)\\.(?:0|[1-9][0-9]*)\\.(?:0|[1-9][0-9]*)(?:-[0-9A-Za-z]+)?)X"
    ∧ format_regex "$versionX" false ≠ "$versionX" :=
  ⟨by decide, by decide⟩

/-- **C6 (amended).** When the wildcard flag is set, every `*` in the
template is replaced by the non-capturing lazy token before placeholder
substitution: on templates without placeholder names the compiled source is
exactly the star-expanded template, and star expansion composes with
placeholder substitution (`v$version-*`).  Placeholder substitution itself
is plain sequential text replacement, so a placeholder name that is a
prefix of a longer literal token is still replaced (see the
counterexample). -/
theorem claim_C6 :
    (∀ p : String, '$' ∉ p.data →
      format_regex p true = pyReplace p "*" "(?:.*?)")
    ∧ format_regex "snapshot-*" true = "snapshot-(?:.*?)"
    ∧ format_regex "v$version-*" true
      = "v(?P<version>(?:0|[1-9][0-9]*)\\.(?:0|[1-9][0-9]*)\\.(?:0|[1-9][0-9]*)(?:-[0-9A-Za-z]+)?)-(?:.*?)" := by
  refine ⟨?_, by decide, by decide⟩
  intro p hp
  have hnd := pyReplace_star_no_dollar p hp
  show List.foldl (fun acc pr => pyReplace acc pr.1 pr.2) (pyReplace p "*" "(?:.*?)")
      tagRegexes = pyReplace p "*" "(?:.*?)"
  simp only [tagRegexes, List.foldl]
  rw [pyReplace_no_dollar _ "$version" _ "version".data rfl hnd]
  rw [pyReplace_no_dollar _ "$major" _ "major".data rfl hnd]
  rw [pyReplace_no_dollar _ "$minor" _ "minor".data rfl hnd]
  rw [pyReplace_no_dollar _ "$patch" _ "patch".data rfl hnd]
  rw [pyReplace_no_dollar _ "$prerelease" _ "prerelease".data rfl hnd]
  rw [pyReplace_no_dollar _ "$devrelease" _ "devrelease".data rfl hnd]

/-- Witness for C6 at the ignored-format template `snapshot-*`. -/
theorem claim_C6_witness :
    format_regex "snapshot-*" true = pyReplace "snapshot-*" "*" "(?:.*?)" :=
  claim_C6.1 "snapshot-*" (by decide)

theorem firstMatches_some_ne (rs : List PyRegex) (txt : String) (ms : List PyMatch)
    (h : firstMatches rs txt = some ms) : ms ≠ [] := by
  induction rs with
  | nil => simp [firstMatches] at h
  | cons r rt ih =>
    rw [firstMatches] at h
    cases hm : r.reFinditer txt with
    | nil =>
      rw [hm] at h
      exact ih h
    | cons m mt =>
      rw [hm] at h
      simp only [Option.some.injEq] at h
      rw [← h]
      simp

theorem searchAssemble_none_iff (m : PyMatch) :
    searchAssemble m = none ↔
      List.lookup "version" m.groups = none ∧
      (List.lookup "major" m.groups = none ∨ List.lookup "minor" m.groups = none ∨
        List.lookup "patch" m.groups = none) := by
  unfold searchAssemble
  cases hv : List.lookup "version" m.groups with
  | some v => simp
  | none =>
    cases hma : List.lookup "major" m.groups with
    | none => simp
    | some ma =>
      cases hmi : List.lookup "minor" m.groups with
      | none => simp
      | some mi =>
        cases hpa : List.lookup "patch" m.groups with
        | none => simp
        | some pa => simp

/-- **C7 (amended).** `search_version` returns `None` exactly when no
configured regex produces any match in the text, or when the selected match
of the winning regex has no `version` group and any of the `major`, `minor`
or `patch` groups is absent from the pattern (a `KeyError` on group
assembly; the original claim listed only `minor`/`patch`, but a missing
`major` key fails in the same way). -/
theorem claim_C7 (rules : TagRules) (txt : String) (last : Bool) :
    rules.search_version txt last = none ↔
      (∀ r ∈ rules.version_regexes, r.reFinditer txt = []) ∨
      (∃ ms m, firstMatches rules.version_regexes txt = some ms ∧
        pickMatch last ms = some m ∧
        List.lookup "version" m.groups = none ∧
        (List.lookup "major" m.groups = none ∨ List.lookup "minor" m.groups = none ∨
          List.lookup "patch" m.groups = none)) := by
  unfold TagRules.search_version
  cases hf : firstMatches rules.version_regexes txt with
  | none =>
    constructor
    · intro _
      exact Or.inl ((firstMatches_none_iff _ _).mp hf)
    · intro _
      rfl
  | some ms =>
    have hne := firstMatches_some_ne _ _ _ hf
    have hpick : ∃ sel, pickMatch last ms = some sel := by
      unfold pickMatch
      by_cases hlast : last = true
      · rw [hlast, if_pos rfl]
        cases hl : ms.getLast? with
        | none => exact absurd (List.getLast?_eq_none_iff.mp hl) hne
        | some g => exact ⟨g, rfl⟩
      · simp only [Bool.not_eq_true] at hlast
        rw [hlast]
        simp only [Bool.false_eq_true, if_false]
        cases ms with
        | nil => exact absurd rfl hne
        | cons a l => exact ⟨a, rfl⟩
    obtain ⟨sel, hsel⟩ := hpick
    show (pickMatch last ms).bind searchAssemble = none ↔ _
    rw [hsel]
    simp only [Option.some_bind]
    constructor
    · intro h
      obtain ⟨h1, h2⟩ := (searchAssemble_none_iff sel).mp h
      exact Or.inr ⟨ms, sel, rfl, hsel, h1, h2⟩
    · intro hor
      rcases hor with hall | ⟨ms', sel', hms', hsel', hcond1, hcond2⟩
      · rw [(firstMatches_none_iff _ _).mpr hall] at hf
        exact Option.noConfusion hf
      · simp only [Option.some.injEq] at hms'
        subst hms'
        rw [hsel] at hsel'
        simp only [Option.some.injEq] at hsel'
        subst hsel'
        exact (searchAssemble_none_iff sel).mpr ⟨hcond1, hcond2⟩

/-- **C7 (counterexample).** With the legal format `"$minor.$patch"` (its
pattern has `minor` and `patch` groups but neither `version` nor `major`),
the text `"2.3"` yields a match whose groupdict contains `minor` and
`patch`; the claim as stated (`None` only when no regex matches, or no
`version` group and the **minor or patch** part is absent) then demands a
successful result, but `search_version` returns `None` — the `f`-string
`f"{parts['major']}..."` raises `KeyError` on the absent `major` key. -/
theorem claim_C7_counterexample :
    TagRules.search_version pairRules "2.3" false = none ∧
    pairRegex.reFinditer "2.3" = [⟨"2.3", [("minor", some "2"), ("patch", some "3")]⟩] ∧
    List.lookup "version" [("minor", some "2"), ("patch", some "3")]
      = (none : Option (Option String)) ∧
    List.lookup "minor" [("minor", some "2"), ("patch", some "3")] = some (some "2") ∧
    List.lookup "patch" [("minor", some "2"), ("patch", some "3")] = some (some "3") :=
  ⟨by decide, by decide, by decide, by decide, by decide⟩

theorem mdTitleMatch_eval (line : String) (n : Nat) (title : String) (nl : List Char)
    (hn : 0 < n) (hnl : nl = [] ∨ nl = ['\n']) (ht : '\n' ∉ title.data)
    (hline : line.data = List.replicate n '#' ++ ' ' :: (title.data ++ nl)) :
    mdTitleMatch line = some (n, title) := by
  obtain ⟨htake, hdrop⟩ := takeWhile_all_append (fun c => c = '#')
    (List.replicate n '#') (' ' :: (title.data ++ nl))
    (by intro c hc; simp [List.eq_of_mem_replicate hc])
    (by intro c hc; simp only [List.head?_cons, Option.some.injEq] at hc; subst hc; decide)
  have hempty : (List.replicate n '#').isEmpty = false := by
    cases n with
    | zero => omega
    | succ k => rfl
  have hcf : title.data.contains '\n' = false := by
    rw [← Bool.not_eq_true]
    intro hc
    exact ht (List.elem_iff.mp hc)
  rcases hnl with rfl | rfl
  · rw [List.append_nil] at htake hdrop hline
    simp only [mdTitleMatch, hline, htake, hdrop, hempty, Bool.false_eq_true, if_false,
      expectChar_cons, hcf, List.length_replicate]
  · have hct : (title.data ++ ['\n']).contains '\n' = true :=
      List.elem_iff.mpr (by simp)
    simp only [mdTitleMatch, hline, htake, hdrop, hempty, Bool.false_eq_true, if_false,
      expectChar_cons, hct, if_true, List.getLast?_concat, List.dropLast_concat, hcf,
      List.length_replicate]
    rw [if_pos (by decide)]

theorem mdTitleMatch_shape (line : String) (n : Nat) (title : String)
    (h : mdTitleMatch line = some (n, title)) :
    ∃ nl, 0 < n ∧ (nl = [] ∨ nl = ['\n']) ∧ '\n' ∉ title.data ∧
      line.data = List.replicate n '#' ++ ' ' :: (title.data ++ nl) := by
  simp only [mdTitleMatch] at h
  have hparts := (List.takeWhile_append_dropWhile
    (p := fun c => c = '#') (l := line.data)).symm
  split at h
  · exact absurd h (by simp)
  rename_i hempty
  have hlen : 0 < (line.data.takeWhile (fun c => c = '#')).length := by
    cases hq : line.data.takeWhile (fun c => c = '#') with
    | nil => rw [hq] at hempty; simp at hempty
    | cons a l => simp [hq]
  have hrep : line.data.takeWhile (fun c => c = '#')
      = List.replicate (line.data.takeWhile (fun c => c = '#')).length '#' := by
    apply List.eq_replicate_of_mem
    intro c hc
    have := List.mem_takeWhile_imp hc
    simpa using this
  split at h
  rename_i t hexp
  · have hrest : line.data.dropWhile (fun c => c = '#') = ' ' :: t :=
      expectChar_sound hexp
    split at h
    · rename_i hcontains
      split at h
      · rename_i hlastcond
        simp only [Option.some.injEq, Prod.mk.injEq] at h
        obtain ⟨hn, htitle⟩ := h
        simp only [Bool.and_eq_true, decide_eq_true_eq, Bool.not_eq_true] at hlastcond
        obtain ⟨hlast, hnodl⟩ := hlastcond
        have hmem : '\n' ∈ t.getLast? := by
          rw [Option.mem_def]
          exact hlast
        have hsplit : t.dropLast ++ ['\n'] = t :=
          List.dropLast_append_getLast? '\n' hmem
        refine ⟨['\n'], ?_, Or.inr rfl, ?_, ?_⟩
        · rw [← hn]; exact hlen
        · rw [← htitle]
          show '\n' ∉ t.dropLast
          intro hc
          have hcc : t.dropLast.contains '\n' = true := List.elem_iff.mpr hc
          rw [hcc] at hnodl
          exact Bool.noConfusion hnodl
        · rw [← hn, ← htitle]
          show line.data
            = List.replicate (line.data.takeWhile (fun c => c = '#')).length '#'
              ++ ' ' :: (t.dropLast ++ ['\n'])
          rw [hsplit, ← hrep, ← hrest]
          exact hparts
      · exact absurd h (by simp)
    · rename_i hcontains
      simp only [Option.some.injEq, Prod.mk.injEq] at h
      obtain ⟨hn, htitle⟩ := h
      refine ⟨[], ?_, Or.inl rfl, ?_, ?_⟩
      · rw [← hn]; exact hlen
      · rw [← htitle]
        show '\n' ∉ t
        intro hc
        exact hcontains (List.elem_iff.mpr hc)
      · rw [← hn, ← htitle]
        show line.data
          = List.replicate (line.data.takeWhile (fun c => c = '#')).length '#'
            ++ ' ' :: (t ++ [])
        rw [List.append_nil, ← hrep, ← hrest]
        exact hparts
  · exact absurd h (by simp)

/-- **C10.** A line parses as a heading exactly when it is one or more `#`
characters, a single space, and a title (with `re`'s `$` tolerating one
final newline, not part of the title).  On such a line
`parse_version_from_title` is exactly `search_version` on the title text and
`parse_title_level` is the number of leading `#`; on any other line both
return `None`. -/
theorem claim_C10 (rules : TagRules) (line : String) :
    (∀ (n : Nat) (title : String) (nl : List Char),
      0 < n → (nl = [] ∨ nl = ['\n']) → '\n' ∉ title.data →
      line.data = List.replicate n '#' ++ ' ' :: (title.data ++ nl) →
      Markdown.parse_version_from_title rules line = rules.search_version title false ∧
      Markdown.parse_title_level line = some n)
    ∧ ((∀ (n : Nat) (title : String) (nl : List Char),
          0 < n → (nl = [] ∨ nl = ['\n']) → '\n' ∉ title.data →
          line.data ≠ List.replicate n '#' ++ ' ' :: (title.data ++ nl)) →
        Markdown.parse_version_from_title rules line = none ∧
        Markdown.parse_title_level line = none) := by
  constructor
  · intro n title nl hn hnl ht hline
    have hmd := mdTitleMatch_eval line n title nl hn hnl ht hline
    constructor
    · simp only [Markdown.parse_version_from_title, hmd]
    · simp only [Markdown.parse_title_level, hmd]
      rfl
  · intro hne
    cases hmd : mdTitleMatch line with
    | none =>
      constructor
      · simp only [Markdown.parse_version_from_title, hmd]
      · simp only [Markdown.parse_title_level, hmd]
        rfl
    | some x =>
      obtain ⟨n, title⟩ := x
      obtain ⟨nl, hn, hnl, ht, hline⟩ := mdTitleMatch_shape line n title hmd
      exact absurd hline (hne n title nl hn hnl ht)

/-- Witness for C10 on the heading `## v1.2.3 done`. -/
theorem claim_C10_witness :
    Markdown.parse_version_from_title (semverRules "v") "## v1.2.3 done"
      = (semverRules "v").search_version "v1.2.3 done" false ∧
    Markdown.parse_title_level "## v1.2.3 done" = some 2 :=
  (claim_C10 (semverRules "v") "## v1.2.3 done").1 2 "v1.2.3 done" []
    (by decide) (Or.inl rfl) (by decide) (by decide)

/-- Witness for C7: on text `xyz` no regex of the `$minor.$patch`
configuration matches, and the characterization places the failure in the
no-match disjunct. -/
theorem claim_C7_witness :
    (∀ r ∈ pairRules.version_regexes, r.reFinditer "xyz" = []) ∨
    (∃ ms m, firstMatches pairRules.version_regexes "xyz" = some ms ∧
      pickMatch false ms = some m ∧
      List.lookup "version" m.groups = none ∧
      (List.lookup "major" m.groups = none ∨ List.lookup "minor" m.groups = none ∨
        List.lookup "patch" m.groups = none)) :=
  (claim_C7 pairRules "xyz" false).mp (by decide)
